import Mathlib

/-!
Verification of the AM-modulation pipeline of `src/graph.py`.

The script synthesizes a baseband, a carrier and an AM-modulated signal on a
uniform time grid (`np.linspace`), computes the two envelopes, and then runs a
spectral analysis: `scipy.fft.fft` of the modulated signal, `fftfreq`
frequency axis, both restricted to the first `N // 2` bins, with a uniform
`2 / N` magnitude normalization.

The embedding below models the numeric arrays as `List ℝ` / `List ℂ` over the
exact reals, with each definition translated pointwise from the source lines
it names.  The script's fixed parameters (`E_m = 100`, …) appear as concrete
constants; the signal formulas are parameterized so that the spec's
"for all valid parameters" statements can be expressed.
-/

noncomputable section

namespace AM

/-- Time grid `np.linspace(0, D, N)` (graph.py line 21): `t[i] = D * i / (N - 1)`.
For `N = 1` numpy returns `[0]`, which the formula also gives since
`0 / 0 = 0` in Lean. -/
def linspace (D : ℝ) (N : ℕ) : List ℝ :=
  List.ofFn (fun i : Fin N => D * i / ((N : ℝ) - 1))

/-- Baseband signal `E_m * np.sin(omega_m * t)` (graph.py line 27). -/
def baseband_signal (Em ωm D : ℝ) (N : ℕ) : List ℝ :=
  (linspace D N).map (fun x => Em * Real.sin (ωm * x))

/-- Carrier signal `E_c * np.sin(omega_c * t)` (graph.py line 30). -/
def carrier_signal (Ec ωc D : ℝ) (N : ℕ) : List ℝ :=
  (linspace D N).map (fun x => Ec * Real.sin (ωc * x))

/-- Modulated signal `(E_c + baseband_signal) * np.sin(omega_c * t)`
(graph.py line 33); elementwise over the same time grid. -/
def modulated_signal (Em Ec ωm ωc D : ℝ) (N : ℕ) : List ℝ :=
  (linspace D N).map (fun x => (Ec + Em * Real.sin (ωm * x)) * Real.sin (ωc * x))

/-- Upper envelope `E_c + baseband_signal` (graph.py line 36). -/
def upper_envelope (Em Ec ωm D : ℝ) (N : ℕ) : List ℝ :=
  (linspace D N).map (fun x => Ec + Em * Real.sin (ωm * x))

/-- Lower envelope `-(E_c + baseband_signal)` (graph.py line 37). -/
def lower_envelope (Em Ec ωm D : ℝ) (N : ℕ) : List ℝ :=
  (linspace D N).map (fun x => -(Ec + Em * Real.sin (ωm * x)))

/-- Baseband frequency `omega_m / (2 * np.pi)` (graph.py line 14). -/
def f_m (ωm : ℝ) : ℝ := ωm / (2 * Real.pi)

/-- Carrier frequency `omega_c / (2 * np.pi)` (graph.py line 15). -/
def f_c (ωc : ℝ) : ℝ := ωc / (2 * Real.pi)

/-- Modulation index `E_m / E_c` (graph.py line 16). -/
def modulation_index (Em Ec : ℝ) : ℝ := Em / Ec

/-- The script's fixed baseband amplitude, `E_m = 100` (graph.py line 8). -/
def E_m : ℝ := 100

/-- The script's fixed carrier amplitude, `E_c = 150` (graph.py line 9). -/
def E_c : ℝ := 150

/-- The script's fixed baseband angular frequency, `omega_m = 200`
(graph.py line 10). -/
def omega_m : ℝ := 200

/-- The script's fixed carrier angular frequency, `omega_c = 3000`
(graph.py line 11). -/
def omega_c : ℝ := 3000

/-- The script's fixed duration, `duration = 0.1` (graph.py line 19). -/
def duration : ℝ := 1 / 10

/-- The script's fixed sample count, `samples = 1000` (graph.py line 20). -/
def samples : ℕ := 1000

/-- The discrete Fourier transform computed by `scipy.fft.fft`
(graph.py line 126): `X[k] = Σ_n x[n] * exp(-2πi * k * n / N)`. -/
def fft (x : List ℂ) : List ℂ :=
  List.ofFn (fun k : Fin x.length =>
    ∑ n ∈ Finset.range x.length,
      x.getD n 0 * Complex.exp (-(2 * Real.pi * Complex.I) * ((k : ℕ) : ℂ) *
        (n : ℂ) / (x.length : ℂ)))

/-- The un-normalized-forward-convention inverse DFT (`scipy.fft.ifft`):
`x[n] = (1/N) * Σ_k X[k] * exp(2πi * k * n / N)`; used for the round-trip
property of §8. -/
def ifft (X : List ℂ) : List ℂ :=
  List.ofFn (fun n : Fin X.length =>
    (∑ k ∈ Finset.range X.length,
        X.getD k 0 * Complex.exp ((2 * Real.pi * Complex.I) * (k : ℂ) *
          ((n : ℕ) : ℂ) / (X.length : ℂ))) / (X.length : ℂ))

/-- Frequency bins `scipy.fft.fftfreq(N, T)`: `[0, 1, ..., ⌈N/2⌉-1, -⌊N/2⌋, ..., -1] / (N*T)`.
Index `k` holds `k / (N*T)` when `k < (N+1)/2` and `(k - N) / (N*T)`
otherwise. -/
def fftfreq (N : ℕ) (T : ℝ) : List ℝ :=
  List.ofFn (fun k : Fin N =>
    if (k : ℕ) < (N + 1) / 2 then ((k : ℕ) : ℝ) / ((N : ℝ) * T)
    else (((k : ℕ) : ℝ) - (N : ℝ)) / ((N : ℝ) * T))

/-- Sampling interval `T = t[1] - t[0]` (graph.py line 122).  Python raises
an `IndexError` when
the grid has fewer than two entries, hence the `Option`. -/
def samplingInterval (D : ℝ) (N : ℕ) : Option ℝ := do
  let t := linspace D N
  let t1 ← t[1]?
  let t0 ← t[0]?
  pure (t1 - t0)

/-- Frequency axis `fftfreq(N, T)[:N//2]` (graph.py line 123). -/
def frequencies (N : ℕ) (T : ℝ) : List ℝ :=
  (fftfreq N T).take (N / 2)

/-- Spectrum `fft(modulated_signal)` (graph.py line 126). -/
def modulated_fft (Em Ec ωm ωc D : ℝ) (N : ℕ) : List ℂ :=
  fft ((modulated_signal Em Ec ωm ωc D N).map Complex.ofReal)

/-- Magnitude spectrum `(2.0 / N) * np.abs(modulated_fft[:N//2])`
(graph.py line 127). -/
def modulated_magnitude (Em Ec ωm ωc D : ℝ) (N : ℕ) : List ℝ :=
  ((modulated_fft Em Ec ωm ωc D N).take (N / 2)).map
    (fun z => 2 / (N : ℝ) * Complex.abs z)

/-- The script's full computational pipeline (graph.py lines 21-127).  The
synthesis stage is total; the only fallible step is the sampling interval
`T = t[1] - t[0]` (an `IndexError` in Python whenever the time grid has
fewer than two entries).  Returns
`(t, baseband, carrier, modulated, upper, lower, frequencies, magnitude)`. -/
def run_pipeline (Em Ec ωm ωc D : ℝ) (N : ℕ) :
    Option (List ℝ × List ℝ × List ℝ × List ℝ × List ℝ × List ℝ ×
      List ℝ × List ℝ) := do
  let T ← samplingInterval D N
  pure (linspace D N, baseband_signal Em ωm D N, carrier_signal Ec ωc D N,
    modulated_signal Em Ec ωm ωc D N, upper_envelope Em Ec ωm D N,
    lower_envelope Em Ec ωm D N, frequencies N T,
    modulated_magnitude Em Ec ωm ωc D N)

/-- The full time-grid contract of §4.1: pointwise formula, strict
monotonicity, uniform spacing, endpoints, and the common length `N` of the
grid and the three signal arrays. -/
def TimeGridSpec (Em Ec ωm ωc D : ℝ) (N : ℕ) : Prop :=
  (∀ i, i < N → (linspace D N).getD i 0 = D * i / ((N : ℝ) - 1)) ∧
  (∀ i j, i < j → j < N →
    (linspace D N).getD i 0 < (linspace D N).getD j 0) ∧
  (∀ i, i + 1 < N →
    (linspace D N).getD (i + 1) 0 - (linspace D N).getD i 0 =
      D / ((N : ℝ) - 1)) ∧
  (linspace D N).getD 0 0 = 0 ∧
  (linspace D N).getD (N - 1) 0 = D ∧
  (linspace D N).length = N ∧
  (baseband_signal Em ωm D N).length = N ∧
  (carrier_signal Ec ωc D N).length = N ∧
  (modulated_signal Em Ec ωm ωc D N).length = N

/-- The frequency-axis contract of §4.2: `N // 2` entries, the pointwise
formula `k / (N * T)`, strict monotonicity, zero first entry, and
non-negativity. -/
def FrequencySpec (N : ℕ) (T : ℝ) : Prop :=
  (frequencies N T).length = N / 2 ∧
  (∀ k, k < N / 2 → (frequencies N T).getD k 0 = (k : ℝ) / ((N : ℝ) * T)) ∧
  (∀ j k, j < k → k < N / 2 →
    (frequencies N T).getD j 0 < (frequencies N T).getD k 0) ∧
  (frequencies N T).getD 0 0 = 0 ∧
  (∀ k, k < N / 2 → 0 ≤ (frequencies N T).getD k 0)

/-- The degenerate `samples = 2` outcome of §8: the pipeline succeeds, the
time grid is exactly `[0, D]`, the signal arrays have length 2, and the
frequency axis and the magnitude spectrum have length 1. -/
def TwoSampleSpec (Em Ec ωm ωc D : ℝ) : Prop :=
  (run_pipeline Em Ec ωm ωc D 2).isSome = true ∧
  linspace D 2 = [0, D] ∧
  (baseband_signal Em ωm D 2).length = 2 ∧
  (carrier_signal Ec ωc D 2).length = 2 ∧
  (modulated_signal Em Ec ωm ωc D 2).length = 2 ∧
  (∀ T, (frequencies 2 T).length = 1) ∧
  (modulated_magnitude Em Ec ωm ωc D 2).length = 1

/-! ### Basic length facts -/

theorem linspace_length (D : ℝ) (N : ℕ) : (linspace D N).length = N := by
  simp [linspace]

theorem linspace_getD (D : ℝ) (N : ℕ) (i : ℕ) (hi : i < N) :
    (linspace D N).getD i 0 = D * i / ((N : ℝ) - 1) := by
  rw [List.getD_eq_getElem _ _ (by simpa [linspace] using hi)]
  simp [linspace]

theorem map_linspace_length (f : ℝ → ℝ) (D : ℝ) (N : ℕ) :
    ((linspace D N).map f).length = N := by
  simp [linspace]

theorem map_linspace_getD (f : ℝ → ℝ) (D : ℝ) (N i : ℕ) (hi : i < N) :
    ((linspace D N).map f).getD i 0 = f (D * i / ((N : ℝ) - 1)) := by
  rw [List.getD_eq_getElem _ _ (by simpa [linspace] using hi)]
  simp [linspace]

theorem fft_length (x : List ℂ) : (fft x).length = x.length := by
  simp [fft]

theorem modulated_fft_length (Em Ec ωm ωc D : ℝ) (N : ℕ) :
    (modulated_fft Em Ec ωm ωc D N).length = N := by
  rw [modulated_fft, fft_length, List.length_map, modulated_signal,
    map_linspace_length]

theorem samplingInterval_of_two_le (D : ℝ) (N : ℕ) (hN : 2 ≤ N) :
    samplingInterval D N = some (D / ((N : ℝ) - 1)) := by
  have h1 : 1 < (linspace D N).length := by rw [linspace_length]; omega
  have h0 : 0 < (linspace D N).length := by omega
  have e1 : (linspace D N)[1]? = some (D / ((N : ℝ) - 1)) := by
    rw [List.getElem?_eq_getElem h1]
    congr 1
    simp [linspace]
  have e0 : (linspace D N)[0]? = some 0 := by
    rw [List.getElem?_eq_getElem h0]
    congr 1
    simp [linspace]
  rw [samplingInterval]
  rw [e1, e0]
  simp

theorem samplingInterval_of_lt_two (D : ℝ) (N : ℕ) (hN : N < 2) :
    samplingInterval D N = none := by
  have h1 : (linspace D N)[1]? = none := by
    rw [List.getElem?_eq_none]
    rw [linspace_length]
    omega
  rw [samplingInterval, h1]
  rfl

theorem fftfreq_getD (N : ℕ) (T : ℝ) (k : ℕ) (hk : k < (N + 1) / 2) :
    (fftfreq N T).getD k 0 = (k : ℝ) / ((N : ℝ) * T) := by
  have hkN : k < N := by omega
  rw [List.getD_eq_getElem _ _ (by simpa [fftfreq] using hkN)]
  simp [fftfreq, hk]

theorem frequencies_length (N : ℕ) (T : ℝ) :
    (frequencies N T).length = N / 2 := by
  simp [frequencies, fftfreq]
  omega

theorem frequencies_getD (N : ℕ) (T : ℝ) (k : ℕ) (hk : k < N / 2) :
    (frequencies N T).getD k 0 = (k : ℝ) / ((N : ℝ) * T) := by
  have h2 : k < (N + 1) / 2 := by omega
  have hkN : k < N := by omega
  have hlen : k < ((fftfreq N T).take (N / 2)).length := by
    simp [fftfreq]
    omega
  rw [frequencies, List.getD_eq_getElem _ _ hlen, List.getElem_take]
  have := fftfreq_getD N T k h2
  rwa [List.getD_eq_getElem _ _ (by simpa [fftfreq] using hkN)] at this

/-! ### DFT inversion -/

theorem two_pi_I_ne_zero : (2 : ℂ) * Real.pi * Complex.I ≠ 0 := by
  have hπ : ((Real.pi : ℝ) : ℂ) ≠ 0 := Complex.ofReal_ne_zero.mpr Real.pi_ne_zero
  exact mul_ne_zero (mul_ne_zero two_ne_zero hπ) Complex.I_ne_zero

/-- Orthogonality of the `N`-th roots of unity: the geometric sum
`Σ_{k<N} exp(2πi k d / N)` is `N` when `N ∣ d` and `0` otherwise. -/
theorem sum_exp_unit_root (N : ℕ) (hN : 0 < N) (d : ℤ) :
    ∑ k ∈ Finset.range N,
        Complex.exp ((2 * Real.pi * Complex.I) * (k : ℂ) * (d : ℂ) / (N : ℂ)) =
      if (N : ℤ) ∣ d then (N : ℂ) else 0 := by
  have hNne : (N : ℂ) ≠ 0 := Nat.cast_ne_zero.mpr hN.ne'
  by_cases hdvd : (N : ℤ) ∣ d
  · obtain ⟨c, hc⟩ := hdvd
    have hone : ∀ k ∈ Finset.range N,
        Complex.exp ((2 * Real.pi * Complex.I) * (k : ℂ) * (d : ℂ) / (N : ℂ)) =
          1 := by
      intro k _
      have harg : (2 * Real.pi * Complex.I) * (k : ℂ) * (d : ℂ) / (N : ℂ) =
          ((k * c : ℤ) : ℂ) * (2 * Real.pi * Complex.I) := by
        rw [hc]
        push_cast
        field_simp
        ring
      rw [harg, Complex.exp_int_mul_two_pi_mul_I]
    rw [Finset.sum_congr rfl hone, if_pos ⟨c, hc⟩]
    simp
  · set z : ℂ := Complex.exp ((2 * Real.pi * Complex.I) * (d : ℂ) / (N : ℂ))
      with hz
    have hzpow : ∀ k ∈ Finset.range N,
        Complex.exp ((2 * Real.pi * Complex.I) * (k : ℂ) * (d : ℂ) / (N : ℂ)) =
          z ^ k := by
      intro k _
      rw [hz, ← Complex.exp_nat_mul]
      congr 1
      ring
    have hzN : z ^ N = 1 := by
      rw [hz, ← Complex.exp_nat_mul]
      have harg : (N : ℂ) * ((2 * Real.pi * Complex.I) * (d : ℂ) / (N : ℂ)) =
          (d : ℂ) * (2 * Real.pi * Complex.I) := by
        field_simp
        ring
      rw [harg, Complex.exp_int_mul_two_pi_mul_I]
    have hzne : z ≠ 1 := by
      intro h1
      rw [hz, Complex.exp_eq_one_iff] at h1
      obtain ⟨c, hcz⟩ := h1
      have h3 := congrArg (fun w => w * (N : ℂ)) hcz
      simp only at h3
      rw [div_mul_cancel₀ _ hNne] at h3
      have h4 : 2 * (Real.pi : ℂ) * Complex.I * (d : ℂ) =
          2 * (Real.pi : ℂ) * Complex.I * ((c : ℂ) * (N : ℂ)) := by
        rw [h3]
        ring
      have h5 : (d : ℂ) = (c : ℂ) * (N : ℂ) :=
        mul_left_cancel₀ two_pi_I_ne_zero h4
      have h6 : d = c * N := by exact_mod_cast h5
      exact hdvd ⟨c, by rw [h6]; ring⟩
    rw [Finset.sum_congr rfl hzpow, geom_sum_eq hzne N, hzN, if_neg hdvd]
    simp

/-- For indices `i, n < N`, divisibility of `i - n` by `N` forces `n = i`. -/
theorem dvd_sub_iff_eq (N i n : ℕ) (hi : i < N) (hn : n < N) :
    ((N : ℤ) ∣ (i : ℤ) - (n : ℤ)) ↔ n = i := by
  constructor
  · intro hdvd
    have habs : |(i : ℤ) - (n : ℤ)| < (N : ℤ) := by
      rw [abs_lt]
      omega
    have := Int.eq_zero_of_abs_lt_dvd hdvd habs
    omega
  · intro h
    subst h
    simp

theorem fft_getD (x : List ℂ) (k : ℕ) (hk : k < x.length) :
    (fft x).getD k 0 =
      ∑ n ∈ Finset.range x.length,
        x.getD n 0 * Complex.exp (-(2 * Real.pi * Complex.I) * (k : ℂ) *
          (n : ℂ) / (x.length : ℂ)) := by
  rw [fft, List.getD_eq_getElem _ _ (by simpa using hk), List.getElem_ofFn]

theorem ifft_getD (X : List ℂ) (n : ℕ) (hn : n < X.length) :
    (ifft X).getD n 0 =
      (∑ k ∈ Finset.range X.length,
          X.getD k 0 * Complex.exp ((2 * Real.pi * Complex.I) * (k : ℂ) *
            (n : ℂ) / (X.length : ℂ))) / (X.length : ℂ) := by
  rw [ifft, List.getD_eq_getElem _ _ (by simpa using hn), List.getElem_ofFn]

/-- Fourier inversion for the embedded DFT: `ifft (fft x) = x`. -/
theorem ifft_fft (x : List ℂ) : ifft (fft x) = x := by
  rcases Nat.eq_zero_or_pos x.length with h0 | hN
  · have hx : x = [] := List.length_eq_zero.mp h0
    subst hx
    rfl
  · have hNne : ((x.length : ℕ) : ℂ) ≠ 0 := Nat.cast_ne_zero.mpr hN.ne'
    apply List.ext_getElem (by simp [ifft, fft])
    intro i h1 h2
    have L : (ifft (fft x)).getD i 0 = x.getD i 0 := ?_
    · rw [List.getD_eq_getElem _ _ h1, List.getD_eq_getElem _ _ h2] at L
      exact L
    rw [ifft_getD (fft x) i (by rw [fft_length]; exact h2)]
    simp only [fft_length]
    have e1 : ∀ k ∈ Finset.range x.length,
        (fft x).getD k 0 * Complex.exp ((2 * Real.pi * Complex.I) * (k : ℂ) *
            (i : ℂ) / (x.length : ℂ)) =
          ∑ n ∈ Finset.range x.length,
            x.getD n 0 * Complex.exp ((2 * Real.pi * Complex.I) * (k : ℂ) *
              ((i : ℂ) - (n : ℂ)) / (x.length : ℂ)) := by
      intro k hk
      rw [fft_getD x k (Finset.mem_range.mp hk), Finset.sum_mul]
      refine Finset.sum_congr rfl fun n _ => ?_
      rw [mul_assoc, ← Complex.exp_add]
      congr 2
      ring
    rw [Finset.sum_congr rfl e1, Finset.sum_comm]
    have e2 : ∀ n ∈ Finset.range x.length,
        (∑ k ∈ Finset.range x.length,
            x.getD n 0 * Complex.exp ((2 * Real.pi * Complex.I) * (k : ℂ) *
              ((i : ℂ) - (n : ℂ)) / (x.length : ℂ))) =
          if n = i then x.getD n 0 * (x.length : ℂ) else 0 := by
      intro n hn
      rw [← Finset.mul_sum]
      have hc : ((i : ℂ) - (n : ℂ)) = (((i : ℤ) - (n : ℤ) : ℤ) : ℂ) := by
        push_cast
        ring
      simp only [hc]
      rw [sum_exp_unit_root x.length hN ((i : ℤ) - (n : ℤ)),
        if_congr (dvd_sub_iff_eq x.length i n h2 (Finset.mem_range.mp hn))
          rfl rfl,
        mul_ite, mul_zero]
    rw [Finset.sum_congr rfl e2,
      Finset.sum_ite_eq' (Finset.range x.length) i
        (fun n => x.getD n 0 * (x.length : ℂ)),
      if_pos (Finset.mem_range.mpr h2), mul_div_cancel_right₀ _ hNne]

/-! ### Claim C1: pointwise definition of the modulated signal -/

/-- C1.  For every index `i < N` and all parameters, the modulated output is
the pointwise product `(E_c + baseband[i]) * sin(ω_c * t[i])`; the modulated
sequence is determined pointwise by the baseband sequence and the time
grid. -/
theorem modulated_eq_envelope_mul_sin (Em Ec ωm ωc D : ℝ) (N i : ℕ)
    (hi : i < N) :
    (modulated_signal Em Ec ωm ωc D N).getD i 0 =
      (Ec + (baseband_signal Em ωm D N).getD i 0) *
        Real.sin (ωc * (linspace D N).getD i 0) := by
  rw [modulated_signal, baseband_signal, map_linspace_getD _ _ _ _ hi,
    map_linspace_getD _ _ _ _ hi, linspace_getD _ _ _ hi]

theorem modulated_eq_envelope_mul_sin_witness :
    0 < 2 ∧
      (modulated_signal 100 150 200 3000 (1 / 10) 2).getD 0 0 =
        (150 + (baseband_signal 100 200 (1 / 10) 2).getD 0 0) *
          Real.sin (3000 * (linspace (1 / 10) 2).getD 0 0) :=
  ⟨by norm_num, modulated_eq_envelope_mul_sin 100 150 200 3000 (1 / 10) 2 0 (by norm_num)⟩

/-! ### Claim C2: uniform 2/N spectrum normalization -/

/-- C2.  For every bin `k < N // 2` — the DC bin `k = 0` included — the
magnitude spectrum equals `(2 / N) * |DFT(modulated)[k]|`: the `2 / N`
normalization is applied uniformly to all bins. -/
theorem magnitude_uniform_normalization (Em Ec ωm ωc D : ℝ) (N k : ℕ)
    (hk : k < N / 2) :
    (modulated_magnitude Em Ec ωm ωc D N).getD k 0 =
      2 / (N : ℝ) * Complex.abs ((modulated_fft Em Ec ωm ωc D N).getD k 0) := by
  have hlen := modulated_fft_length Em Ec ωm ωc D N
  have hkN : k < N := lt_of_lt_of_le hk (Nat.div_le_self N 2)
  have htake : k < ((modulated_fft Em Ec ωm ωc D N).take (N / 2)).length := by
    rw [List.length_take, hlen]
    omega
  rw [modulated_magnitude,
    List.getD_eq_getElem _ _ (by simpa using htake),
    List.getElem_map, List.getElem_take,
    List.getD_eq_getElem _ _ (by rw [hlen]; exact hkN)]

theorem magnitude_uniform_normalization_witness :
    0 < 2 / 2 ∧
      (modulated_magnitude 100 150 200 3000 (1 / 10) 2).getD 0 0 =
        2 / ((2 : ℕ) : ℝ) *
          Complex.abs ((modulated_fft 100 150 200 3000 (1 / 10) 2).getD 0 0) :=
  ⟨by norm_num,
    magnitude_uniform_normalization 100 150 200 3000 (1 / 10) 2 0 (by norm_num)⟩

/-! ### Claim C3: the frequency axis -/

/-- C3.  For `N ≥ 2`, `D > 0` and `T = t[1] - t[0]`, the frequency axis has
exactly `N // 2` entries, `frequencies[k] = k / (N * T)` for each
`k < N // 2`, the axis is strictly increasing, its first entry is `0`, and
every entry is non-negative. -/
theorem frequency_axis_spec (D T : ℝ) (N : ℕ) (hN : 2 ≤ N) (hD : 0 < D)
    (hT : samplingInterval D N = some T) : FrequencySpec N T := by
  have hTval : T = D / ((N : ℝ) - 1) := by
    rw [samplingInterval_of_two_le D N hN] at hT
    exact (Option.some_injective _ hT).symm
  have hN1 : (0 : ℝ) < (N : ℝ) - 1 := by
    have : (2 : ℝ) ≤ (N : ℝ) := by exact_mod_cast hN
    linarith
  have hTpos : 0 < T := hTval ▸ div_pos hD hN1
  have hNpos : (0 : ℝ) < (N : ℝ) := by positivity
  have hNT : (0 : ℝ) < (N : ℝ) * T := mul_pos hNpos hTpos
  refine ⟨frequencies_length N T, fun k hk => frequencies_getD N T k hk,
    ?_, ?_, ?_⟩
  · intro j k hjk hk
    rw [frequencies_getD N T j (by omega), frequencies_getD N T k hk]
    have hjk' : (j : ℝ) < (k : ℝ) := by exact_mod_cast hjk
    have hinv : (0 : ℝ) < ((N : ℝ) * T)⁻¹ := inv_pos.mpr hNT
    rw [div_eq_mul_inv, div_eq_mul_inv]
    nlinarith [mul_pos (sub_pos.mpr hjk') hinv]
  · rw [frequencies_getD N T 0 (by omega)]
    simp
  · intro k hk
    rw [frequencies_getD N T k hk]
    exact div_nonneg (Nat.cast_nonneg k) hNT.le

theorem frequency_axis_spec_witness :
    2 ≤ 2 ∧ (0 : ℝ) < 1 / 10 ∧
      samplingInterval (1 / 10) 2 = some (1 / 10) ∧
      FrequencySpec 2 (1 / 10) :=
  ⟨le_refl 2, by norm_num,
    by rw [samplingInterval_of_two_le (1 / 10) 2 (le_refl 2)]; norm_num,
    frequency_axis_spec (1 / 10) (1 / 10) 2 (le_refl 2) (by norm_num)
      (by rw [samplingInterval_of_two_le (1 / 10) 2 (le_refl 2)]; norm_num)⟩

/-! ### Claim C5: the time grid -/

/-- C5.  For `N ≥ 2` and `D > 0` the time grid is `t[i] = D * i / (N - 1)`,
strictly increasing with uniform spacing `D / (N - 1)`, starting at `0` and
ending at `D`; the time grid and the three signal arrays all have length
`N`. -/
theorem time_grid_spec (Em Ec ωm ωc D : ℝ) (N : ℕ) (hN : 2 ≤ N) (hD : 0 < D) :
    TimeGridSpec Em Ec ωm ωc D N := by
  rw [TimeGridSpec]
  have hN1 : (0 : ℝ) < (N : ℝ) - 1 := by
    have : (2 : ℝ) ≤ (N : ℝ) := by exact_mod_cast hN
    linarith
  refine ⟨fun i hi => linspace_getD D N i hi, ?_, ?_, ?_, ?_, linspace_length D N,
    map_linspace_length _ _ _, map_linspace_length _ _ _, map_linspace_length _ _ _⟩
  · intro i j hij hj
    rw [linspace_getD D N i (hij.trans hj), linspace_getD D N j hj]
    have hij' : (i : ℝ) < (j : ℝ) := by exact_mod_cast hij
    have hinv : (0 : ℝ) < ((N : ℝ) - 1)⁻¹ := inv_pos.mpr hN1
    rw [div_eq_mul_inv, div_eq_mul_inv]
    nlinarith [mul_pos (mul_pos hD (sub_pos.mpr hij')) hinv]
  · intro i hi
    rw [linspace_getD D N (i + 1) hi, linspace_getD D N i (by omega)]
    push_cast
    field_simp
    ring
  · rw [linspace_getD D N 0 (by omega)]
    simp
  · rw [linspace_getD D N (N - 1) (by omega)]
    have : ((N - 1 : ℕ) : ℝ) = (N : ℝ) - 1 := by
      have : 1 ≤ N := by omega
      push_cast [this]
      ring
    rw [this]
    field_simp

theorem time_grid_spec_witness :
    2 ≤ 2 ∧ (0 : ℝ) < 1 / 10 ∧ TimeGridSpec 100 150 200 3000 (1 / 10) 2 :=
  ⟨le_refl 2, by norm_num,
    time_grid_spec 100 150 200 3000 (1 / 10) 2 (le_refl 2) (by norm_num)⟩

/-! ### Claim C6: envelope negation -/

/-- C6.  For every `i < N` and all parameters, `upper[i] = E_c + baseband[i]`,
`lower[i] = -upper[i]`, and hence `upper[i] + lower[i] = 0`. -/
theorem envelope_negation (Em Ec ωm D : ℝ) (N i : ℕ) (hi : i < N) :
    (upper_envelope Em Ec ωm D N).getD i 0 =
        Ec + (baseband_signal Em ωm D N).getD i 0 ∧
      (lower_envelope Em Ec ωm D N).getD i 0 =
        -((upper_envelope Em Ec ωm D N).getD i 0) ∧
      (upper_envelope Em Ec ωm D N).getD i 0 +
        (lower_envelope Em Ec ωm D N).getD i 0 = 0 := by
  rw [upper_envelope, lower_envelope, baseband_signal,
    map_linspace_getD _ _ _ _ hi, map_linspace_getD _ _ _ _ hi,
    map_linspace_getD _ _ _ _ hi]
  refine ⟨rfl, rfl, by ring⟩

theorem envelope_negation_witness :
    0 < 2 ∧
      ((upper_envelope 100 150 200 (1 / 10) 2).getD 0 0 =
          150 + (baseband_signal 100 200 (1 / 10) 2).getD 0 0 ∧
        (lower_envelope 100 150 200 (1 / 10) 2).getD 0 0 =
          -((upper_envelope 100 150 200 (1 / 10) 2).getD 0 0) ∧
        (upper_envelope 100 150 200 (1 / 10) 2).getD 0 0 +
          (lower_envelope 100 150 200 (1 / 10) 2).getD 0 0 = 0) :=
  ⟨by norm_num, envelope_negation 100 150 200 (1 / 10) 2 0 (by norm_num)⟩

/-! ### Claim C8: derived scalars -/

/-- C8.  The derived scalars satisfy `f_m = ω_m / (2π)`, `f_c = ω_c / (2π)`
and `modulation_index = E_m / E_c`; whenever `E_m = E_c` (with `E_c > 0`) the
modulation index is exactly `1`, and at the script's values `E_m = 100`,
`E_c = 150` it is exactly `2 / 3`. -/
theorem derived_scalars_spec (Em Ec ωm ωc : ℝ) (hEc : 0 < Ec) :
    f_m ωm = ωm / (2 * Real.pi) ∧
      f_c ωc = ωc / (2 * Real.pi) ∧
      modulation_index Em Ec = Em / Ec ∧
      (Em = Ec → modulation_index Em Ec = 1) ∧
      modulation_index E_m E_c = 2 / 3 := by
  refine ⟨rfl, rfl, rfl, ?_, by norm_num [modulation_index, E_m, E_c]⟩
  intro h
  rw [modulation_index, h, div_self hEc.ne']

theorem derived_scalars_spec_witness :
    (0 : ℝ) < 150 ∧
      (f_m 200 = 200 / (2 * Real.pi) ∧
        f_c 3000 = 3000 / (2 * Real.pi) ∧
        modulation_index 100 150 = 100 / 150 ∧
        ((100 : ℝ) = 150 → modulation_index 100 150 = 1) ∧
        modulation_index E_m E_c = 2 / 3) :=
  ⟨by norm_num, derived_scalars_spec 100 150 200 3000 (by norm_num)⟩

/-! ### Claim C10: the modulated signal stays between the envelopes -/

/-- C10.  If `0 ≤ E_m ≤ E_c` then for every `i < N` the modulated sample lies
between the lower and the upper envelope:
`lower[i] ≤ modulated[i] ≤ upper[i]`. -/
theorem modulated_between_envelopes (Em Ec ωm ωc D : ℝ) (N i : ℕ)
    (hi : i < N) (hEm : 0 ≤ Em) (hEmEc : Em ≤ Ec) :
    (lower_envelope Em Ec ωm D N).getD i 0 ≤
        (modulated_signal Em Ec ωm ωc D N).getD i 0 ∧
      (modulated_signal Em Ec ωm ωc D N).getD i 0 ≤
        (upper_envelope Em Ec ωm D N).getD i 0 := by
  rw [lower_envelope, upper_envelope, modulated_signal,
    map_linspace_getD _ _ _ _ hi, map_linspace_getD _ _ _ _ hi,
    map_linspace_getD _ _ _ _ hi]
  set x := D * i / ((N : ℝ) - 1)
  have hsm₁ := Real.neg_one_le_sin (ωm * x)
  have hsm₂ := Real.sin_le_one (ωm * x)
  have hsc₁ := Real.neg_one_le_sin (ωc * x)
  have hsc₂ := Real.sin_le_one (ωc * x)
  have hu : 0 ≤ Ec + Em * Real.sin (ωm * x) := by nlinarith
  constructor
  · nlinarith
  · nlinarith

/-! ### Claim C4: input validation -/

/-- C4 counterexample.  A non-positive amplitude parameter
(`E_m = -100`) does not make the computation fail: the pipeline runs to
completion, so there is no fail-fast `InvalidInput` rejection of
non-positive amplitude/frequency/duration parameters. -/
theorem no_validation_counterexample :
    (run_pipeline (-100) 150 200 3000 (1 / 10) 1000).isSome = true := by
  rw [run_pipeline, samplingInterval_of_two_le (1 / 10) 1000 (by norm_num)]
  rfl

/-- C4 (amended).  The code performs no input validation: arbitrary (also
non-positive) amplitude, frequency and duration parameters are accepted and
the pipeline produces its arrays whenever `N ≥ 2`; the only failure is
`N < 2` (`N = 0` included), where the sampling interval `t[1] - t[0]`
fails with an index error (not a descriptive `InvalidInput`). -/
theorem pipeline_failure_modes (Em Ec ωm ωc D : ℝ) (N : ℕ) :
    (2 ≤ N → (run_pipeline Em Ec ωm ωc D N).isSome = true) ∧
      (N < 2 → run_pipeline Em Ec ωm ωc D N = none) := by
  constructor
  · intro h
    rw [run_pipeline, samplingInterval_of_two_le D N h]
    rfl
  · intro h
    rw [run_pipeline, samplingInterval_of_lt_two D N h]
    rfl

theorem pipeline_failure_modes_witness :
    (run_pipeline 100 150 200 3000 (1 / 10) 1000).isSome = true ∧
      run_pipeline 100 150 200 3000 (1 / 10) 0 = none :=
  ⟨(pipeline_failure_modes 100 150 200 3000 (1 / 10) 1000).1 (by norm_num),
    (pipeline_failure_modes 100 150 200 3000 (1 / 10) 0).2 (by norm_num)⟩

/-! ### Claim C7: DFT round-trip -/

/-- C7.  Applying the inverse DFT to the un-normalized, full two-sided DFT
of the modulated signal and taking the real part reproduces the modulated
sequence exactly (over the reals; hence within any tolerance). -/
theorem fft_roundtrip (Em Ec ωm ωc D : ℝ) (N : ℕ) :
    (ifft (modulated_fft Em Ec ωm ωc D N)).map Complex.re =
      modulated_signal Em Ec ωm ωc D N := by
  rw [modulated_fft, ifft_fft, List.map_map]
  have hcomp : Complex.re ∘ Complex.ofReal = id := funext fun x => rfl
  rw [hcomp, List.map_id]

/-! ### Claim C9: two samples run to completion -/

/-- C9.  With `samples = 2` and positive parameters the whole pipeline runs
to completion, producing the two-point grid `[0, D]`, length-2 signal
arrays, and a length-1 frequency axis and spectrum. -/
theorem two_samples_degenerate (Em Ec ωm ωc D : ℝ) (_hEm : 0 < Em)
    (_hEc : 0 < Ec) (_hωm : 0 < ωm) (_hωc : 0 < ωc) (_hD : 0 < D) :
    TwoSampleSpec Em Ec ωm ωc D := by
  refine ⟨?_, ?_, map_linspace_length _ _ _, map_linspace_length _ _ _,
    map_linspace_length _ _ _, ?_, ?_⟩
  · rw [run_pipeline, samplingInterval_of_two_le D 2 (le_refl 2)]
    rfl
  · simp [linspace, List.ofFn_succ]
    norm_num
  · intro T
    rw [frequencies_length]
  · rw [modulated_magnitude, List.length_map, List.length_take,
      modulated_fft_length]
    decide

theorem two_samples_degenerate_witness :
    (0 : ℝ) < 100 ∧ (0 : ℝ) < 150 ∧ (0 : ℝ) < 200 ∧ (0 : ℝ) < 3000 ∧
      (0 : ℝ) < 1 / 10 ∧ TwoSampleSpec 100 150 200 3000 (1 / 10) :=
  ⟨by norm_num, by norm_num, by norm_num, by norm_num, by norm_num,
    two_samples_degenerate 100 150 200 3000 (1 / 10) (by norm_num)
      (by norm_num) (by norm_num) (by norm_num) (by norm_num)⟩

theorem modulated_between_envelopes_witness :
    0 < 2 ∧ (0 : ℝ) ≤ 100 ∧ (100 : ℝ) ≤ 150 ∧
      ((lower_envelope 100 150 200 (1 / 10) 2).getD 0 0 ≤
          (modulated_signal 100 150 200 3000 (1 / 10) 2).getD 0 0 ∧
        (modulated_signal 100 150 200 3000 (1 / 10) 2).getD 0 0 ≤
          (upper_envelope 100 150 200 (1 / 10) 2).getD 0 0) :=
  ⟨by norm_num, by norm_num, by norm_num,
    modulated_between_envelopes 100 150 200 3000 (1 / 10) 2 0 (by norm_num)
      (by norm_num) (by norm_num)⟩

end AM
